import Mathlib

/-!
Verification of `falco_rule_evaluator.py`: a shunting-yard construction of a
boolean expression tree from infix tokens (`Tree.construct_tree`) and a
recursive evaluator of that tree against an event mapping (`Tree.evaluate`).

The embedding mirrors the Python source: tokens are either operand pairs or
plain strings; stacks are lists with the head as top; a Python `IndexError`
or `KeyError` is modelled by `Option`/`Except`; the evaluator's unbounded
recursion (its `node or self.root` fallback can in principle re-enter the
root) is modelled with explicit fuel, so termination claims become
statements that sufficient fuel yields a result independent of the fuel.
-/

namespace Falco

/-- An operand token: a `(field, value)` equality predicate. -/
abbrev Operand := String × String

/-- An event: a mapping from field names to values, modelled as an
association list looked up with `List.lookup` (mirroring the Python dict). -/
abbrev Event := List (String × String)

/-- A token of the infix expression: either an operand tuple or a plain
string (`"and"`, `"or"`, `"("`, `")"`, or anything else), exactly as the
Python code distinguishes `isinstance(token, tuple)` from strings. -/
inductive Token : Type where
  | operand (fv : Operand)
  | str (s : String)
deriving DecidableEq, Repr

/-- The dynamically typed `data` slot of a Python `Node`: a tuple or a
string. -/
inductive TData : Type where
  | tup (fv : Operand)
  | str (s : String)
deriving DecidableEq, Repr

/-- The Python `Node` class: `data`, optional `left`, optional `right`. -/
inductive Node : Type where
  | mk (data : TData) (left : Option Node) (right : Option Node)

/-- Projection of the `data` field of a `Node`. -/
def Node.data : Node → TData
  | .mk d _ _ => d

/-- Projection of the `left` field of a `Node`. -/
def Node.left : Node → Option Node
  | .mk _ l _ => l

/-- Projection of the `right` field of a `Node`. -/
def Node.right : Node → Option Node
  | .mk _ _ r => r

/-- `Node.leaf_check` from the source: a node is a leaf iff both children
are `None`. -/
def Node.leaf_check : Node → Bool
  | .mk _ none none => true
  | _ => false

/-- Evaluation of a leaf operand against an event
(`opndEval (f, v) fes` is true iff `fes` maps `f` to exactly `v`),
the tuple branch of the source's `eval_to_bool`. -/
def opndEval (fv : Operand) (fes : Event) : Bool :=
  match List.lookup fv.1 fes with
  | some w => fv.2 == w
  | none => false

/-- `eval_to_bool` from the source: `data[0] in fes and data[1] == fes[data[0]]`.
For tuple data this is the operand predicate.  For string data Python would
index into the string's characters (possibly raising `IndexError`, modelled
as `.error`); this branch is unreachable from trees the builder produces but
is embedded faithfully. -/
def eval_to_bool (data : TData) (fes : Event) : Except String Bool :=
  match data with
  | .tup fv => .ok (opndEval fv fes)
  | .str s =>
    match s.data with
    | [] => .error "IndexError"
    | c0 :: rest =>
      match List.lookup (String.mk [c0]) fes with
      | none => .ok false
      | some w =>
        match rest with
        | [] => .error "IndexError"
        | c1 :: _ => .ok (String.mk [c1] == w)

/-- The Python `Tree` dataclass: wraps a root node (possibly `None`). -/
structure Tree : Type where
  root : Option Node

/-- The `while` loop run on a `")"` token: reduce (pop right, operator,
left; push the built node) until the operator stack's top is `"("`, then pop
that `"("`.  An empty stack models the Python `IndexError` as `none`. -/
def reduceUntilParen : List String → List Node → Option (List String × List Node)
  | [], _ => none
  | op :: ops, nds =>
    if op = "(" then some (ops, nds)
    else
      match nds with
      | r :: l :: nds2 => reduceUntilParen ops (Node.mk (.str op) (some l) (some r) :: nds2)
      | _ => none

/-- One iteration of the token loop of `construct_tree`: the state is the
pair (operator stack, operand stack) with list heads as stack tops. -/
def step : List String × List Node → Token → Option (List String × List Node)
  | (ops, nds), .operand fv => some (ops, Node.mk (.tup fv) none none :: nds)
  | (ops, nds), .str s =>
    if s = "or" ∧ ops.head? = some "and" then
      match ops, nds with
      | op :: ops2, r :: l :: nds2 =>
        some ("or" :: ops2, Node.mk (.str op) (some l) (some r) :: nds2)
      | _, _ => none
    else if s = ")" then
      reduceUntilParen ops nds
    else
      some (s :: ops, nds)

/-- The token loop of `construct_tree`, aborting on the first error. -/
def runTokens : List Token → List String × List Node → Option (List String × List Node)
  | [], st => some st
  | t :: ts, st =>
    match step st t with
    | none => none
    | some st2 => runTokens ts st2

/-- The final `while operator_stack` loop of `construct_tree`: reduce until
the operator stack is empty. -/
def drain : List String → List Node → Option (List Node)
  | [], nds => some nds
  | op :: ops, r :: l :: nds => drain ops (Node.mk (.str op) (some l) (some r) :: nds)
  | _ :: _, _ => none

/-- `Tree.construct_tree` from the source: run the token loop, drain the
operator stack, and pop the top of the operand stack as the root.  Any stack
underflow (Python `IndexError`) yields `none`. -/
def construct_tree (tokens : List Token) : Option Tree :=
  match runTokens tokens ([], []) with
  | none => none
  | some (ops, nds) =>
    match drain ops nds with
    | none => none
    | some [] => none
    | some (root :: _) => some ⟨some root⟩

/-- The recursive body of `Tree.evaluate`, with explicit fuel.  `none` means
the fuel ran out (Python would still be recursing); `some (.error e)` models
a raised exception (`KeyError` on an unknown operator, `IndexError` inside
`eval_to_bool`); `some (.ok b)` is a returned boolean.  The Python fallback
`node = node or self.root` is embedded literally: a `none` argument is
replaced by the root before anything else. -/
def evalFuel (root : Option Node) (fes : Event) : Nat → Option Node → Option (Except String Bool)
  | 0, _ => none
  | n + 1, onode =>
    let node : Option Node := match onode with
      | none => root
      | some nd => some nd
    match node with
    | none => some (.ok false)
    | some nd =>
      if nd.leaf_check then some (eval_to_bool nd.data fes)
      else
        match evalFuel root fes n nd.left with
        | none => none
        | some (.error e) => some (.error e)
        | some (.ok x) =>
          match evalFuel root fes n nd.right with
          | none => none
          | some (.error e) => some (.error e)
          | some (.ok y) =>
            match nd.data with
            | .str s =>
              if s = "and" then some (.ok (x && y))
              else if s = "or" then some (.ok (x || y))
              else some (.error "KeyError")
            | .tup _ => some (.error "KeyError")

/-- `Tree.evaluate` from the source (initial call passes no node, which the
fallback replaces by the root), with explicit fuel. -/
def Tree.evaluate (t : Tree) (fes : Event) (fuel : Nat) : Option (Except String Bool) :=
  evalFuel t.root fes fuel none

/-- Number of nodes of a tree rooted at a node. -/
def Node.size : Node → Nat
  | .mk _ none none => 1
  | .mk _ (some l) none => 1 + l.size
  | .mk _ none (some r) => 1 + r.size
  | .mk _ (some l) (some r) => 1 + l.size + r.size

/-- Number of leaf nodes (both children absent) of a tree. -/
def leafCount : Node → Nat
  | .mk _ none none => 1
  | .mk _ (some l) none => leafCount l
  | .mk _ none (some r) => leafCount r
  | .mk _ (some l) (some r) => leafCount l + leafCount r

/-- Number of internal nodes (at least one child present) of a tree. -/
def internalCount : Node → Nat
  | .mk _ none none => 0
  | .mk _ (some l) none => 1 + internalCount l
  | .mk _ none (some r) => 1 + internalCount r
  | .mk _ (some l) (some r) => 1 + internalCount l + internalCount r

/-- The structural invariant of built trees (claim C6): a node is a leaf iff
both children are absent, a leaf's data is an operand tuple, an internal
node's data is `"and"` or `"or"` and both children are present (so no node
has exactly one child). -/
def wfNode : Node → Bool
  | .mk (.tup _) none none => true
  | .mk (.str s) (some l) (some r) => (s == "and" || s == "or") && wfNode l && wfNode r
  | _ => false

/-- The weaker shape invariant that every tree popped out of the builder's
operand stack satisfies, whatever the input tokens: every node has either
no children or both children (never exactly one). -/
def totalNode : Node → Bool
  | .mk _ none none => true
  | .mk _ (some l) (some r) => totalNode l && totalNode r
  | _ => false

/-- The boolean combination the evaluator applies at an internal node with
operator string `op` (the `process` dictionary of the source); any other
string would raise `KeyError`, which at the boolean level is irrelevant and
mapped to `false` (it is only ever used at `"and"`/`"or"`). -/
def combineB (op : String) (l r : Bool) : Bool :=
  if op = "and" then l && r else if op = "or" then l || r else false

/-- Exception-free denotation of a tree: what `evaluate` returns on trees
satisfying `wfNode` (proved below), defined by structural recursion. -/
def denote (fes : Event) : Node → Bool
  | .mk (.tup fv) none none => opndEval fv fes
  | .mk (.str s) (some l) (some r) => combineB s (denote fes l) (denote fes r)
  | .mk _ _ _ => false

/-- Exception-aware denotation of a tree with no single-child nodes: the
value `evaluate` computes on any tree the builder can produce, including
ill-formed operator strings (which yield the `KeyError` the source would
raise). -/
def totalEval (fes : Event) : Node → Except String Bool
  | .mk d none none => eval_to_bool d fes
  | .mk d (some l) (some r) =>
    match totalEval fes l with
    | .error e => .error e
    | .ok x =>
      match totalEval fes r with
      | .error e => .error e
      | .ok y =>
        match d with
        | .str s =>
          if s = "and" then .ok (x && y)
          else if s = "or" then .ok (x || y)
          else .error "KeyError"
        | .tup _ => .error "KeyError"
  | .mk _ _ _ => .ok false

/-- Folding a run of operators over the top of the operand stack, exactly as
`drain` and the `")"` loop do: pop right then left, push the combined node;
returns the collapsed node and the untouched remainder of the stack. -/
def collapseN : List String → List Node → Option (Node × List Node)
  | [], n :: ns => some (n, ns)
  | op :: seg, r :: l :: ns => collapseN seg (Node.mk (.str op) (some l) (some r) :: ns)
  | _, _ => none

/-- The boolean shadow of `collapseN`: the same fold on denotations. -/
def collapseB : List String → List Bool → Option (Bool × List Bool)
  | [], b :: bs => some (b, bs)
  | op :: seg, r :: l :: bs => collapseB seg (combineB op l r :: bs)
  | _, _ => none

/-!
The grammar of syntactically valid infix token sequences.  `SExpr 2` is the
standard unambiguous stratified grammar
`E → E "or" A | A`, `A → A "and" T | T`, `T → operand | "(" E ")"`,
so the flattenings of `SExpr 2` terms are exactly the syntactically valid
token sequences with `"and"` binding tighter than `"or"` and left-associated
operators, and `specDenote` is their conventional reading.
-/

/-- Stratified infix expressions: level 0 are atoms, level 1 are `and`
chains, level 2 are `or` chains of `and` chains. -/
inductive SExpr : Nat → Type where
  | atom (fv : Operand) : SExpr 0
  | paren (o : SExpr 2) : SExpr 0
  | ofAtom (t : SExpr 0) : SExpr 1
  | eand (a : SExpr 1) (t : SExpr 0) : SExpr 1
  | ofChain (a : SExpr 1) : SExpr 2
  | eor (o : SExpr 2) (a : SExpr 1) : SExpr 2

/-- The token sequence of a stratified expression. -/
def flattenSE : {n : Nat} → SExpr n → List Token
  | _, .atom fv => [.operand fv]
  | _, .paren o => .str "(" :: (flattenSE o ++ [.str ")"])
  | _, .ofAtom t => flattenSE t
  | _, .eand a t => flattenSE a ++ .str "and" :: flattenSE t
  | _, .ofChain a => flattenSE a
  | _, .eor o a => flattenSE o ++ .str "or" :: flattenSE a

/-- Modelled from the spec: the conventional reading of a valid infix token
sequence, in which `and` binds tighter than `or` within a parenthesis level
and operators are left-associative — i.e. the denotation of its (unique)
stratified parse. -/
def specDenote (fes : Event) : {n : Nat} → SExpr n → Bool
  | _, .atom fv => opndEval fv fes
  | _, .paren o => specDenote fes o
  | _, .ofAtom t => specDenote fes t
  | _, .eand a t => specDenote fes a && specDenote fes t
  | _, .ofChain a => specDenote fes a
  | _, .eor o a => specDenote fes o || specDenote fes a

/-- Number of `"and"` operators of the trailing (rightmost) top-level `and`
chain of an expression: exactly the `"and"`s still pending on the operator
stack after the builder has consumed the expression's tokens. -/
def taSE : {n : Nat} → SExpr n → Nat
  | _, .atom _ => 0
  | _, .paren _ => 0
  | _, .ofAtom _ => 0
  | _, .eand a _ => taSE a + 1
  | _, .ofChain a => taSE a
  | _, .eor _ a => taSE a

/-- Number of top-level `"or"` operators of an expression. -/
def ocSE : {n : Nat} → SExpr n → Nat
  | _, .atom _ => 0
  | _, .paren _ => 0
  | _, .ofAtom _ => 0
  | _, .eand _ _ => 0
  | _, .ofChain _ => 0
  | _, .eor o _ => ocSE o + 1

/-- The operator-stack segment the builder accumulates for one expression. -/
def segSE {n : Nat} (e : SExpr n) : List String :=
  List.replicate (taSE e) "and" ++ List.replicate (ocSE e) "or"

/-- The restriction under which the builder's single-reduction precedence
rule is complete: every top-level `"or"` is preceded (at its parenthesis
level, since the last `"or"` there) by at most one `"and"`, so at most one
`"and"` is pending whenever an `"or"` token arrives. -/
def okPrec : {n : Nat} → SExpr n → Bool
  | _, .atom _ => true
  | _, .paren o => okPrec o
  | _, .ofAtom t => okPrec t
  | _, .eand a t => okPrec a && okPrec t
  | _, .ofChain a => okPrec a
  | _, .eor o a => okPrec o && okPrec a && decide (taSE o ≤ 1)

/-- Whether a token is an operand. -/
def isOpnd : Token → Bool
  | .operand _ => true
  | .str _ => false

/-- Whether a token is a logical operator token. -/
def isAndOr : Token → Bool
  | .str s => s == "and" || s == "or"
  | .operand _ => false

/-- Number of operand tokens in a token sequence. -/
def countOpnd (ts : List Token) : Nat := ts.countP isOpnd

/-- Number of `"and"`/`"or"` operator tokens in a token sequence. -/
def countAndOr (ts : List Token) : Nat := ts.countP isAndOr

/-- The conventional parse of the valid token sequence
`a=1 and b=1 and c=1 or d=1`, namely `((a=1 and b=1) and c=1) or d=1`. -/
def cexExpr : SExpr 2 :=
  .eor
    (.ofChain (.eand (.eand (.ofAtom (.atom ("a", "1"))) (.atom ("b", "1"))) (.atom ("c", "1"))))
    (.ofAtom (.atom ("d", "1")))

/-- An event containing only `d = 1`. -/
def cexEvent : Event := [("d", "1")]

/-- The conventional parse of the token sequence `a=1 or b=2`. -/
def w1Expr : SExpr 2 :=
  .eor (.ofChain (.ofAtom (.atom ("a", "1")))) (.ofAtom (.atom ("b", "2")))

/-! ### Characterization of single steps of the builder -/

theorem step_operand (ops : List String) (nds : List Node) (fv : Operand) :
    step (ops, nds) (.operand fv) = some (ops, Node.mk (.tup fv) none none :: nds) := rfl

theorem step_str (ops : List String) (nds : List Node) (s : String) :
    step (ops, nds) (.str s) =
      if s = "or" ∧ ops.head? = some "and" then
        match ops, nds with
        | op :: ops2, r :: l :: nds2 =>
          some ("or" :: ops2, Node.mk (.str op) (some l) (some r) :: nds2)
        | _, _ => none
      else if s = ")" then reduceUntilParen ops nds
      else some (s :: ops, nds) := rfl

theorem step_push (ops : List String) (nds : List Node) (s : String)
    (h1 : ¬(s = "or" ∧ ops.head? = some "and")) (h2 : s ≠ ")") :
    step (ops, nds) (.str s) = some (s :: ops, nds) := by
  rw [step_str, if_neg h1, if_neg h2]

theorem step_or_trigger (ops2 : List String) (nds2 : List Node) (r l : Node) :
    step ("and" :: ops2, r :: l :: nds2) (.str "or") =
      some ("or" :: ops2, Node.mk (.str "and") (some l) (some r) :: nds2) := rfl

theorem step_rparen (ops : List String) (nds : List Node) :
    step (ops, nds) (.str ")") = reduceUntilParen ops nds := by
  rw [step_str, if_neg (by simp), if_pos rfl]

theorem runTokens_append (xs ys : List Token) (st : List String × List Node) :
    runTokens (xs ++ ys) st = (runTokens xs st).bind (runTokens ys) := by
  induction xs generalizing st with
  | nil => simp [runTokens]
  | cons t ts ih =>
    simp only [List.cons_append, runTokens]
    cases step st t with
    | none => rfl
    | some st2 => exact ih st2

/-! ### The collapsing fold shared by `drain` and the `")"` loop -/

theorem drain_of_collapseN (ops : List String) (nds : List Node) (v : Node)
    (rest : List Node) (h : collapseN ops nds = some (v, rest)) :
    drain ops nds = some (v :: rest) := by
  induction ops generalizing nds with
  | nil =>
    cases nds with
    | nil => simp [collapseN] at h
    | cons x xs =>
      simp [collapseN] at h
      simp [drain, h.1, h.2]
  | cons op ops ih =>
    match nds with
    | [] => simp [collapseN] at h
    | [x] => simp [collapseN] at h
    | r :: l :: nds2 =>
      simp only [collapseN] at h
      simpa [drain] using ih _ h

theorem reduceUntilParen_of_collapseN (seg : List String) (ops : List String)
    (nds : List Node) (v : Node) (rest : List Node)
    (hseg : ∀ s ∈ seg, s ≠ "(")
    (h : collapseN seg nds = some (v, rest)) :
    reduceUntilParen (seg ++ "(" :: ops) nds = some (ops, v :: rest) := by
  induction seg generalizing nds with
  | nil =>
    cases nds with
    | nil => simp [collapseN] at h
    | cons x xs =>
      simp [collapseN] at h
      simp [reduceUntilParen, h.1, h.2]
  | cons op seg ih =>
    match nds with
    | [] => simp [collapseN] at h
    | [x] => simp [collapseN] at h
    | r :: l :: nds2 =>
      simp only [collapseN] at h
      have hop : op ≠ "(" := hseg op (by simp)
      simp only [List.cons_append, reduceUntilParen, if_neg hop]
      exact ih _ (fun s hs => hseg s (List.mem_cons_of_mem _ hs)) h

theorem collapseN_spec (seg : List String) :
    ∀ (nds1 rest : List Node), nds1.length = seg.length + 1 →
    ∃ v, collapseN seg (nds1 ++ rest) = some (v, rest) ∧
      ((∀ s ∈ seg, s = "and" ∨ s = "or") → (∀ x ∈ nds1, wfNode x = true) →
        wfNode v = true) ∧
      leafCount v = (nds1.map leafCount).sum ∧
      internalCount v = (nds1.map internalCount).sum + seg.length ∧
      (∀ fes bs, collapseB seg (nds1.map (denote fes) ++ bs) = some (denote fes v, bs)) := by
  induction seg with
  | nil =>
    intro nds1 rest hlen
    match nds1, hlen with
    | [x], _ =>
      refine ⟨x, rfl, fun _ hx => hx x (by simp), by simp, by simp, fun fes bs => rfl⟩
  | cons op seg ih =>
    intro nds1 rest hlen
    match nds1, hlen with
    | r :: l :: nds2, hlen =>
      have hlen2 : (Node.mk (.str op) (some l) (some r) :: nds2).length = seg.length + 1 := by
        simpa using hlen
      obtain ⟨v, hcol, hwf, hleaf, hint, hB⟩ := ih (Node.mk (.str op) (some l) (some r) :: nds2) rest hlen2
      refine ⟨v, ?_, ?_, ?_, ?_, ?_⟩
      · simpa [collapseN] using hcol
      · intro hseg hx
        refine hwf (fun s hs => hseg s (by simp [hs])) ?_
        intro x hx2
        rcases List.mem_cons.mp hx2 with h | h
        · subst h
          have hop : (op == "and" || op == "or") = true := by
            rcases hseg op (by simp) with h | h <;> simp [h]
          simp [wfNode, hop, hx l (by simp), hx r (by simp)]
        · exact hx x (by simp [h])
      · simp only [List.map_cons, List.sum_cons] at hleaf ⊢
        simp only [leafCount] at hleaf
        omega
      · simp only [List.map_cons, List.sum_cons, List.length_cons] at hint ⊢
        simp only [internalCount] at hint
        omega
      · intro fes bs
        have hthis := hB fes bs
        simp only [List.map_cons, List.cons_append, denote] at hthis ⊢
        rw [collapseB]
        exact hthis

theorem collapseB_append_of (s1 s2 : List String) (bs : List Bool) (v : Bool)
    (rest : List Bool) (h : collapseB s1 bs = some (v, rest)) :
    collapseB (s1 ++ s2) bs = collapseB s2 (v :: rest) := by
  induction s1 generalizing bs with
  | nil =>
    cases bs with
    | nil => simp [collapseB] at h
    | cons b bs =>
      simp [collapseB] at h
      simp [h.1, h.2]
  | cons op s1 ih =>
    match bs with
    | [] => simp [collapseB] at h
    | [b] => simp [collapseB] at h
    | r :: l :: bs2 =>
      simp only [collapseB] at h
      simpa [collapseB] using ih _ h

theorem combineB_and (x y : Bool) : combineB "and" x y = (x && y) := rfl

theorem combineB_or (x y : Bool) : combineB "or" x y = (x || y) := rfl

theorem combineB_assoc (op : String) (hop : op = "and" ∨ op = "or") (a b c : Bool) :
    combineB op a (combineB op b c) = combineB op (combineB op a b) c := by
  rcases hop with h | h <;> subst h <;>
    simp [combineB, Bool.and_assoc, Bool.or_assoc]

theorem collapseB_snoc (op : String) (hop : op = "and" ∨ op = "or") :
    ∀ (k : Nat) (N B : List Bool) (v W : Bool), N.length = k + 1 →
    collapseB (List.replicate k op) (N ++ B) = some (v, B) →
    collapseB (List.replicate (k + 1) op) ((W :: N) ++ B) = some (combineB op v W, B) := by
  intro k
  induction k with
  | zero =>
    intro N B v W hlen h
    match N, hlen with
    | [y], _ =>
      have hyv : y = v := by simpa [List.replicate_zero, collapseB] using h
      subst hyv
      rfl
  | succ k ih =>
    intro N B v W hlen h
    match N, hlen with
    | y2 :: y1 :: N2, hlen =>
      have hlen2 : (combineB op y1 y2 :: N2).length = k + 1 := by simpa using hlen
      rw [List.replicate_succ] at h
      simp only [List.cons_append, collapseB] at h
      have ih2 := ih (combineB op y1 y2 :: N2) B v W hlen2 (by simpa using h)
      rw [List.replicate_succ] at ih2
      simp only [List.cons_append, collapseB] at ih2
      rw [List.replicate_succ, List.replicate_succ]
      simp only [List.cons_append, collapseB]
      rw [combineB_assoc op hop]
      exact ih2

/-! ### Evaluation of well-shaped trees -/

theorem size_pos (nd : Node) : 1 ≤ nd.size := by
  match nd with
  | .mk d none none => simp [Node.size]
  | .mk d (some l) none => simp [Node.size]
  | .mk d none (some r) => simp [Node.size]
  | .mk d (some l) (some r) => simp only [Node.size]; omega

theorem wf_total : ∀ (nd : Node), wfNode nd = true → totalNode nd = true
  | .mk (.tup _) none none, _ => rfl
  | .mk (.tup _) (some _) (some _), h => by simp [wfNode] at h
  | .mk (.str _) (some l) (some r), h => by
    simp only [wfNode, Bool.and_eq_true] at h
    simp only [totalNode, Bool.and_eq_true]
    exact ⟨wf_total l h.1.2, wf_total r h.2⟩
  | .mk (.str _) none none, h => by simp [wfNode] at h
  | .mk _ (some _) none, h => by simp [wfNode] at h
  | .mk _ none (some _), h => by simp [wfNode] at h

theorem totalEval_wf : ∀ (nd : Node), wfNode nd = true → ∀ (fes : Event),
    totalEval fes nd = .ok (denote fes nd)
  | .mk (.tup _) none none, _, fes => rfl
  | .mk (.tup _) (some _) (some _), h, fes => by simp [wfNode] at h
  | .mk (.str s) (some l) (some r), h, fes => by
    simp only [wfNode, Bool.and_eq_true] at h
    obtain ⟨⟨hs, hl⟩, hr⟩ := h
    rw [totalEval, totalEval_wf l hl fes, totalEval_wf r hr fes]
    rcases Bool.or_eq_true _ _ |>.mp hs with hs2 | hs2 <;>
      rw [eq_of_beq hs2] <;> simp [denote, combineB]
  | .mk (.str _) none none, h, fes => by simp [wfNode] at h
  | .mk _ (some _) none, h, fes => by simp [wfNode] at h
  | .mk _ none (some _), h, fes => by simp [wfNode] at h

theorem evalFuel_total : ∀ (n : Nat) (nd : Node), totalNode nd = true → nd.size ≤ n →
    ∀ (root : Option Node) (fes : Event),
    evalFuel root fes n (some nd) = some (totalEval fes nd) := by
  intro n
  induction n with
  | zero =>
    intro nd _ hsz
    exact absurd hsz (by have := size_pos nd; omega)
  | succ n ih =>
    intro nd htot hsz root fes
    match nd with
    | .mk d none none =>
      cases d <;> simp [evalFuel, Node.leaf_check, totalEval, Node.data]
    | .mk d (some l) none => exact absurd htot (by simp [totalNode])
    | .mk d none (some r) => exact absurd htot (by simp [totalNode])
    | .mk d (some l) (some r) =>
      have htl : totalNode l = true ∧ totalNode r = true := by
        simpa [totalNode] using htot
      have hszl : l.size ≤ n := by simp [Node.size] at hsz; omega
      have hszr : r.size ≤ n := by simp [Node.size] at hsz; omega
      rw [evalFuel]
      simp only [Node.leaf_check, Bool.false_eq_true, if_false, Node.left, Node.right,
        Node.data]
      rw [ih l htl.1 hszl root fes]
      cases hl : totalEval fes l with
      | error e => simp [totalEval, hl]
      | ok x =>
        rw [ih r htl.2 hszr root fes]
        cases hr : totalEval fes r with
        | error e => simp [totalEval, hl, hr]
        | ok y =>
          cases d with
          | tup fv => simp [totalEval, hl, hr]
          | str s =>
            by_cases h1 : s = "and"
            · simp [totalEval, hl, hr, h1]
            · by_cases h2 : s = "or" <;> simp [totalEval, hl, hr, h1, h2]

theorem treeEval_some (r : Node) (fes : Event) (n : Nat) :
    Tree.evaluate ⟨some r⟩ fes n = evalFuel (some r) fes n (some r) := by
  cases n <;> rfl

/-! ### Every tree the builder produces has no single-child node -/

theorem reduceUntilParen_cons (op : String) (ops : List String) (nds : List Node) :
    reduceUntilParen (op :: ops) nds =
      if op = "(" then some (ops, nds)
      else
        match nds with
        | r :: l :: nds2 =>
          reduceUntilParen ops (Node.mk (.str op) (some l) (some r) :: nds2)
        | _ => none := rfl

theorem reduceUntilParen_total (ops : List String) :
    ∀ (nds : List Node) (ops2 : List String) (nds2 : List Node),
    (∀ x ∈ nds, totalNode x = true) →
    reduceUntilParen ops nds = some (ops2, nds2) →
    ∀ x ∈ nds2, totalNode x = true := by
  induction ops with
  | nil =>
    intro nds ops2 nds2 h heq
    simp [reduceUntilParen] at heq
  | cons op ops ih =>
    intro nds ops2 nds2 h heq
    rw [reduceUntilParen_cons] at heq
    by_cases hop : op = "("
    · rw [if_pos hop] at heq
      simp only [Option.some.injEq, Prod.mk.injEq] at heq
      obtain ⟨rfl, rfl⟩ := heq
      exact h
    · rw [if_neg hop] at heq
      match nds, h, heq with
      | [], h, heq => simp at heq
      | [x], h, heq => simp at heq
      | r :: l :: nds3, h, heq =>
        refine ih _ _ _ ?_ heq
        intro x hx
        rcases List.mem_cons.mp hx with rfl | hx2
        · simp only [totalNode, Bool.and_eq_true]
          exact ⟨h l (by simp), h r (by simp)⟩
        · exact h x (by simp [hx2])

theorem step_total (st : List String × List Node) (tk : Token)
    (st2 : List String × List Node)
    (h : ∀ x ∈ st.2, totalNode x = true) (heq : step st tk = some st2) :
    ∀ x ∈ st2.2, totalNode x = true := by
  obtain ⟨ops, nds⟩ := st
  cases tk with
  | operand fv =>
    rw [step_operand] at heq
    simp only [Option.some.injEq] at heq
    subst heq
    intro x hx
    rcases List.mem_cons.mp hx with rfl | hx2
    · rfl
    · exact h x hx2
  | str s =>
    rw [step_str] at heq
    by_cases h1 : s = "or" ∧ ops.head? = some "and"
    · rw [if_pos h1] at heq
      match ops, nds, h, heq with
      | [], nds, h, heq => simp at heq
      | op :: ops2, [], h, heq => simp at heq
      | op :: ops2, [x], h, heq => simp at heq
      | op :: ops2, r :: l :: nds2, h, heq =>
        simp only [Option.some.injEq] at heq
        subst heq
        intro x hx
        rcases List.mem_cons.mp hx with rfl | hx2
        · simp only [totalNode, Bool.and_eq_true]
          exact ⟨h l (by simp), h r (by simp)⟩
        · exact h x (by simp [hx2])
    · rw [if_neg h1] at heq
      by_cases h2 : s = ")"
      · rw [if_pos h2] at heq
        exact reduceUntilParen_total ops nds st2.1 st2.2 h (by rw [heq])
      · rw [if_neg h2] at heq
        simp only [Option.some.injEq] at heq
        subst heq
        exact h

theorem runTokens_total (ts : List Token) :
    ∀ (st st2 : List String × List Node),
    (∀ x ∈ st.2, totalNode x = true) →
    runTokens ts st = some st2 →
    ∀ x ∈ st2.2, totalNode x = true := by
  induction ts with
  | nil =>
    intro st st2 h heq
    simp only [runTokens, Option.some.injEq] at heq
    subst heq
    exact h
  | cons t ts ih =>
    intro st st2 h heq
    rw [runTokens] at heq
    cases hstep : step st t with
    | none => rw [hstep] at heq; simp at heq
    | some st3 =>
      rw [hstep] at heq
      exact ih st3 st2 (step_total st t st3 h hstep) heq

theorem drain_total (ops : List String) :
    ∀ (nds nds2 : List Node),
    (∀ x ∈ nds, totalNode x = true) →
    drain ops nds = some nds2 →
    ∀ x ∈ nds2, totalNode x = true := by
  induction ops with
  | nil =>
    intro nds nds2 h heq
    simp only [drain, Option.some.injEq] at heq
    subst heq
    exact h
  | cons op ops ih =>
    intro nds nds2 h heq
    match nds, h, heq with
    | [], h, heq => simp [drain] at heq
    | [x], h, heq => simp [drain] at heq
    | r :: l :: nds3, h, heq =>
      rw [drain] at heq
      refine ih _ _ ?_ heq
      intro x hx
      rcases List.mem_cons.mp hx with rfl | hx2
      · simp only [totalNode, Bool.and_eq_true]
        exact ⟨h l (by simp), h r (by simp)⟩
      · exact h x (by simp [hx2])

theorem construct_of_parts (ts : List Token) (ops : List String) (nds nds2 : List Node)
    (root : Node) (rest : List Node)
    (hrun : runTokens ts ([], []) = some (ops, nds))
    (hdr : drain ops nds = some nds2) (hpop : nds2 = root :: rest) :
    construct_tree ts = some ⟨some root⟩ := by
  subst hpop
  rw [construct_tree, hrun]
  show (match drain ops nds with
    | none => none
    | some [] => none
    | some (root :: _) => some (Tree.mk (some root))) = some ⟨some root⟩
  rw [hdr]

/-! ### Token-count bookkeeping -/

theorem countOpnd_append (ts1 ts2 : List Token) :
    countOpnd (ts1 ++ ts2) = countOpnd ts1 + countOpnd ts2 := by
  simp [countOpnd, List.countP_append]

theorem countAndOr_append (ts1 ts2 : List Token) :
    countAndOr (ts1 ++ ts2) = countAndOr ts1 + countAndOr ts2 := by
  simp [countAndOr, List.countP_append]

theorem countOpnd_cons_str (s : String) (ts : List Token) :
    countOpnd (.str s :: ts) = countOpnd ts := by
  simp [countOpnd, List.countP_cons, isOpnd]

theorem countOpnd_cons_operand (fv : Operand) (ts : List Token) :
    countOpnd (.operand fv :: ts) = countOpnd ts + 1 := by
  simp [countOpnd, List.countP_cons, isOpnd]

theorem countOpnd_nil : countOpnd [] = 0 := rfl

theorem countAndOr_cons_operand (fv : Operand) (ts : List Token) :
    countAndOr (.operand fv :: ts) = countAndOr ts := by
  simp [countAndOr, List.countP_cons, isAndOr]

theorem countAndOr_cons_and (ts : List Token) :
    countAndOr (.str "and" :: ts) = countAndOr ts + 1 := by
  simp [countAndOr, List.countP_cons, isAndOr]

theorem countAndOr_cons_or (ts : List Token) :
    countAndOr (.str "or" :: ts) = countAndOr ts + 1 := by
  simp [countAndOr, List.countP_cons, isAndOr]

theorem countAndOr_cons_lparen (ts : List Token) :
    countAndOr (.str "(" :: ts) = countAndOr ts := by
  simp [countAndOr, List.countP_cons, isAndOr]

theorem countAndOr_cons_rparen (ts : List Token) :
    countAndOr (.str ")" :: ts) = countAndOr ts := by
  simp [countAndOr, List.countP_cons, isAndOr]

theorem countAndOr_nil : countAndOr [] = 0 := rfl

theorem runTokens_cons (t : Token) (ts : List Token) (st : List String × List Node) :
    runTokens (t :: ts) st =
      match step st t with
      | none => none
      | some st2 => runTokens ts st2 := rfl

theorem andor_ne_lparen {s : String} (h : s = "and" ∨ s = "or") : s ≠ "(" := by
  rcases h with h | h <;> simp [h]

theorem construct_total (ts : List Token) (t : Tree)
    (h : construct_tree ts = some t) :
    ∃ root, t.root = some root ∧ totalNode root = true := by
  cases hrun : runTokens ts ([], []) with
  | none =>
    rw [construct_tree, hrun] at h
    simp at h
  | some st =>
    obtain ⟨ops, nds⟩ := st
    have h2 : (match drain ops nds with
        | none => none
        | some [] => none
        | some (root :: _) => some (Tree.mk (some root))) = some t := by
      rw [construct_tree, hrun] at h
      exact h
    have hnds : ∀ x ∈ nds, totalNode x = true :=
      runTokens_total ts ([], []) (ops, nds) (by simp) hrun
    cases hdr : drain ops nds with
    | none => rw [hdr] at h2; simp at h2
    | some nds2 =>
      rw [hdr] at h2
      match nds2, h2 with
      | [], h2 => simp at h2
      | root :: rest, h2 =>
        simp only [Option.some.injEq] at h2
        subst h2
        exact ⟨root, rfl, drain_total ops nds (root :: rest) hnds hdr root (by simp)⟩

/-! ### Running the builder over any valid token sequence -/

theorem run_weak {n : Nat} (e : SExpr n) : ∀ (ops : List String) (nds : List Node),
    (n = 2 → ops.head? ≠ some "and") →
    ∃ seg newNds,
      runTokens (flattenSE e) (ops, nds) = some (seg ++ ops, newNds ++ nds) ∧
      (∀ s ∈ seg, s = "and" ∨ s = "or") ∧
      newNds.length = seg.length + 1 ∧
      (∀ x ∈ newNds, wfNode x = true) ∧
      (newNds.map leafCount).sum = countOpnd (flattenSE e) ∧
      (newNds.map internalCount).sum + seg.length = countAndOr (flattenSE e) := by
  induction e with
  | atom fv =>
    intro ops nds _
    refine ⟨[], [Node.mk (.tup fv) none none], ?_, by simp, by simp, ?_, ?_, ?_⟩
    · show runTokens [Token.operand fv] (ops, nds) = _
      rw [runTokens_cons, step_operand]
      simp [runTokens]
    · intro x hx
      simp only [List.mem_singleton] at hx
      subst hx
      rfl
    · show _ = countOpnd [Token.operand fv]
      simp [countOpnd_cons_operand, countOpnd_nil, leafCount]
    · show _ = countAndOr [Token.operand fv]
      simp [countAndOr_cons_operand, countAndOr_nil, internalCount]
  | paren o iho =>
    intro ops nds _
    obtain ⟨segO, newO, hrun, hmem, hlen, hwf, hleaf, hint⟩ :=
      iho ("(" :: ops) nds (fun _ => by simp)
    obtain ⟨v, hcol, hwfv, hleafv, hintv, -⟩ := collapseN_spec segO newO nds hlen
    have hne : ∀ s ∈ segO, s ≠ "(" := fun s hs => andor_ne_lparen (hmem s hs)
    have hred : reduceUntilParen (segO ++ "(" :: ops) (newO ++ nds) = some (ops, v :: nds) :=
      reduceUntilParen_of_collapseN segO ops (newO ++ nds) v nds hne hcol
    have e1 : runTokens (flattenSE (.paren o)) (ops, nds) =
        runTokens (flattenSE o ++ [.str ")"]) ("(" :: ops, nds) := by
      show runTokens (.str "(" :: (flattenSE o ++ [.str ")"])) (ops, nds) = _
      rw [runTokens_cons, step_push _ _ "(" (by simp) (by simp)]
    have e2 : runTokens (flattenSE o ++ [.str ")"]) ("(" :: ops, nds) =
        runTokens [.str ")"] (segO ++ "(" :: ops, newO ++ nds) := by
      rw [runTokens_append, hrun]
      rfl
    have e3 : runTokens [.str ")"] (segO ++ "(" :: ops, newO ++ nds) =
        some (ops, v :: nds) := by
      rw [runTokens_cons, step_rparen, hred]
      rfl
    refine ⟨[], [v], ?_, by simp, by simp, ?_, ?_, ?_⟩
    · rw [e1, e2, e3]
      simp
    · intro x hx
      simp only [List.mem_singleton] at hx
      subst hx
      exact hwfv hmem hwf
    · show _ = countOpnd (Token.str "(" :: (flattenSE o ++ [.str ")"]))
      rw [countOpnd_cons_str, countOpnd_append]
      simp only [List.map_cons, List.map_nil, List.sum_cons, List.sum_nil]
      rw [hleafv, hleaf]
      simp [countOpnd_cons_str, countOpnd_nil]
    · show _ = countAndOr (Token.str "(" :: (flattenSE o ++ [.str ")"]))
      rw [countAndOr_cons_lparen, countAndOr_append]
      simp only [List.map_cons, List.map_nil, List.sum_cons, List.sum_nil, List.length_nil]
      rw [hintv]
      simp only [countAndOr_cons_rparen, countAndOr_nil]
      omega
  | ofAtom t iht =>
    intro ops nds _
    exact iht ops nds (fun hh => absurd hh (by decide))
  | eand a t iha iht =>
    intro ops nds _
    obtain ⟨segA, newA, hrunA, hmemA, hlenA, hwfA, hleafA, hintA⟩ :=
      iha ops nds (fun hh => absurd hh (by decide))
    obtain ⟨segT, newT, hrunT, hmemT, hlenT, hwfT, hleafT, hintT⟩ :=
      iht ("and" :: (segA ++ ops)) (newA ++ nds) (fun hh => absurd hh (by decide))
    have e1 : runTokens (flattenSE (.eand a t)) (ops, nds) =
        runTokens (.str "and" :: flattenSE t) (segA ++ ops, newA ++ nds) := by
      show runTokens (flattenSE a ++ (.str "and" :: flattenSE t)) (ops, nds) = _
      rw [runTokens_append, hrunA]
      rfl
    have e2 : runTokens (.str "and" :: flattenSE t) (segA ++ ops, newA ++ nds) =
        runTokens (flattenSE t) ("and" :: (segA ++ ops), newA ++ nds) := by
      rw [runTokens_cons, step_push _ _ "and" (by simp) (by simp)]
    refine ⟨segT ++ "and" :: segA, newT ++ newA, ?_, ?_, ?_, ?_, ?_, ?_⟩
    · rw [e1, e2, hrunT]
      simp [List.append_assoc]
    · intro s hs
      rcases List.mem_append.mp hs with hs | hs
      · exact hmemT s hs
      · rcases List.mem_cons.mp hs with rfl | hs
        · exact Or.inl rfl
        · exact hmemA s hs
    · simp only [List.length_append, List.length_cons]
      omega
    · intro x hx
      rcases List.mem_append.mp hx with hx | hx
      · exact hwfT x hx
      · exact hwfA x hx
    · show _ = countOpnd (flattenSE a ++ (.str "and" :: flattenSE t))
      rw [countOpnd_append, countOpnd_cons_str]
      simp only [List.map_append, List.sum_append]
      omega
    · show _ = countAndOr (flattenSE a ++ (.str "and" :: flattenSE t))
      rw [countAndOr_append, countAndOr_cons_and]
      simp only [List.map_append, List.sum_append, List.length_append, List.length_cons]
      omega
  | ofChain a iha =>
    intro ops nds _
    exact iha ops nds (fun hh => absurd hh (by decide))
  | eor o a iho iha =>
    intro ops nds h
    obtain ⟨segO, newO, hrunO, hmemO, hlenO, hwfO, hleafO, hintO⟩ :=
      iho ops nds (fun _ => h rfl)
    have e1 : runTokens (flattenSE (.eor o a)) (ops, nds) =
        runTokens (.str "or" :: flattenSE a) (segO ++ ops, newO ++ nds) := by
      show runTokens (flattenSE o ++ (.str "or" :: flattenSE a)) (ops, nds) = _
      rw [runTokens_append, hrunO]
      rfl
    by_cases hAnd : segO.head? = some "and"
    · obtain ⟨segO2, rfl⟩ : ∃ s2, segO = "and" :: s2 := by
        cases segO with
        | nil => simp at hAnd
        | cons x xs =>
          simp only [List.head?_cons, Option.some.injEq] at hAnd
          exact ⟨xs, by rw [hAnd]⟩
      obtain ⟨r, l, newO2, rfl⟩ : ∃ r l newO2, newO = r :: l :: newO2 := by
        match newO, hlenO with
        | r :: l :: newO2, _ => exact ⟨r, l, newO2, rfl⟩
      have e2 : runTokens (.str "or" :: flattenSE a)
            (("and" :: segO2) ++ ops, (r :: l :: newO2) ++ nds) =
          runTokens (flattenSE a)
            ("or" :: (segO2 ++ ops), Node.mk (.str "and") (some l) (some r) :: (newO2 ++ nds)) := by
        simp only [List.cons_append]
        rw [runTokens_cons, step_or_trigger]
      obtain ⟨segA, newA, hrunA, hmemA, hlenA, hwfA, hleafA, hintA⟩ :=
        iha ("or" :: (segO2 ++ ops))
          (Node.mk (.str "and") (some l) (some r) :: (newO2 ++ nds))
          (fun hh => absurd hh (by decide))
      refine ⟨segA ++ "or" :: segO2,
        newA ++ (Node.mk (.str "and") (some l) (some r) :: newO2), ?_, ?_, ?_, ?_, ?_, ?_⟩
      · rw [e1, e2, hrunA]
        simp [List.append_assoc]
      · intro s hs
        rcases List.mem_append.mp hs with hs | hs
        · exact hmemA s hs
        · rcases List.mem_cons.mp hs with rfl | hs
          · exact Or.inr rfl
          · exact hmemO s (by simp [hs])
      · simp only [List.length_append, List.length_cons] at hlenA hlenO ⊢
        omega
      · intro x hx
        rcases List.mem_append.mp hx with hx | hx
        · exact hwfA x hx
        · rcases List.mem_cons.mp hx with rfl | hx
          · have hl := hwfO l (by simp)
            have hr := hwfO r (by simp)
            simp [wfNode, hl, hr]
          · exact hwfO x (by simp [hx])
      · show _ = countOpnd (flattenSE o ++ (.str "or" :: flattenSE a))
        rw [countOpnd_append, countOpnd_cons_str]
        simp only [List.map_append, List.sum_append, List.map_cons, List.sum_cons] at hleafO ⊢
        simp only [leafCount]
        omega
      · show _ = countAndOr (flattenSE o ++ (.str "or" :: flattenSE a))
        rw [countAndOr_append, countAndOr_cons_or]
        simp only [List.map_append, List.sum_append, List.map_cons, List.sum_cons,
          List.length_append, List.length_cons] at hintO hintA ⊢
        simp only [internalCount]
        omega
    · have hguard : ¬("or" = "or" ∧ ((segO ++ ops).head? = some "and")) := by
        rintro ⟨-, hc⟩
        cases segO with
        | nil => exact (h rfl) (by simpa using hc)
        | cons x xs => exact hAnd (by simpa using hc)
      have e2 : runTokens (.str "or" :: flattenSE a) (segO ++ ops, newO ++ nds) =
          runTokens (flattenSE a) ("or" :: (segO ++ ops), newO ++ nds) := by
        rw [runTokens_cons, step_push _ _ "or" hguard (by simp)]
      obtain ⟨segA, newA, hrunA, hmemA, hlenA, hwfA, hleafA, hintA⟩ :=
        iha ("or" :: (segO ++ ops)) (newO ++ nds) (fun hh => absurd hh (by decide))
      refine ⟨segA ++ "or" :: segO, newA ++ newO, ?_, ?_, ?_, ?_, ?_, ?_⟩
      · rw [e1, e2, hrunA]
        simp [List.append_assoc]
      · intro s hs
        rcases List.mem_append.mp hs with hs | hs
        · exact hmemA s hs
        · rcases List.mem_cons.mp hs with rfl | hs
          · exact Or.inr rfl
          · exact hmemO s hs
      · simp only [List.length_append, List.length_cons]
        omega
      · intro x hx
        rcases List.mem_append.mp hx with hx | hx
        · exact hwfA x hx
        · exact hwfO x hx
      · show _ = countOpnd (flattenSE o ++ (.str "or" :: flattenSE a))
        rw [countOpnd_append, countOpnd_cons_str]
        simp only [List.map_append, List.sum_append]
        omega
      · show _ = countAndOr (flattenSE o ++ (.str "or" :: flattenSE a))
        rw [countAndOr_append, countAndOr_cons_or]
        simp only [List.map_append, List.sum_append, List.length_append, List.length_cons]
        omega

/-! ### Facts about the pending-operator segment of an expression -/

theorem ocSE_level1 (a : SExpr 1) : ocSE a = 0 := by
  cases a <;> rfl

theorem segSE_level0 (t : SExpr 0) : segSE t = [] := by
  cases t <;> rfl

theorem segSE_level1 (a : SExpr 1) : segSE a = List.replicate (taSE a) "and" := by
  rw [segSE, ocSE_level1 a]
  simp

theorem segSE_eand (a : SExpr 1) (t : SExpr 0) : segSE (.eand a t) = "and" :: segSE a := by
  rw [segSE_level1 a]
  show List.replicate (taSE a + 1) "and" ++ List.replicate 0 "or" = _
  simp [List.replicate_succ]

theorem segSE_ofChain (a : SExpr 1) : segSE (.ofChain a) = segSE a := by
  rw [segSE_level1 a]
  show List.replicate (taSE a) "and" ++ List.replicate 0 "or" = _
  simp

theorem segSE_mem {n : Nat} (e : SExpr n) : ∀ s ∈ segSE e, s = "and" ∨ s = "or" := by
  intro s hs
  rw [segSE] at hs
  rcases List.mem_append.mp hs with hs | hs
  · exact Or.inl (List.eq_of_mem_replicate hs)
  · exact Or.inr (List.eq_of_mem_replicate hs)

theorem segSE_eor (o : SExpr 2) (a : SExpr 1) :
    segSE (.eor o a) = segSE a ++ "or" :: List.replicate (ocSE o) "or" := by
  rw [segSE_level1 a]
  show List.replicate (taSE a) "and" ++ List.replicate (ocSE o + 1) "or" = _
  simp [List.replicate_succ]

/-! ### Running the builder under the single-pending-`and` restriction -/

theorem run_strong {n : Nat} (e : SExpr n) : ∀ (ops : List String) (nds : List Node),
    okPrec e = true →
    (n = 2 → ops.head? ≠ some "and") →
    ∃ newNds,
      runTokens (flattenSE e) (ops, nds) = some (segSE e ++ ops, newNds ++ nds) ∧
      newNds.length = (segSE e).length + 1 ∧
      (∀ x ∈ newNds, wfNode x = true) ∧
      (∀ (fes : Event) (bs : List Bool),
        collapseB (segSE e) (newNds.map (denote fes) ++ bs) =
          some (specDenote fes e, bs)) := by
  induction e with
  | atom fv =>
    intro ops nds _ _
    refine ⟨[Node.mk (.tup fv) none none], ?_, by simp [segSE, taSE, ocSE], ?_, ?_⟩
    · show runTokens [Token.operand fv] (ops, nds) = _
      rw [runTokens_cons, step_operand]
      rw [show segSE (.atom fv) = [] from rfl]
      simp [runTokens]
    · intro x hx
      simp only [List.mem_singleton] at hx
      subst hx
      rfl
    · intro fes bs
      rfl
  | paren o iho =>
    intro ops nds hok _
    obtain ⟨newO, hrun, hlen, hwf, hB⟩ := iho ("(" :: ops) nds hok (fun _ => by simp)
    obtain ⟨v, hcol, hwfv, -, -, hBv⟩ := collapseN_spec (segSE o) newO nds hlen
    have hne : ∀ s ∈ segSE o, s ≠ "(" := fun s hs => andor_ne_lparen (segSE_mem o s hs)
    have hred : reduceUntilParen (segSE o ++ "(" :: ops) (newO ++ nds) = some (ops, v :: nds) :=
      reduceUntilParen_of_collapseN (segSE o) ops (newO ++ nds) v nds hne hcol
    have hv : ∀ fes, denote fes v = specDenote fes o := by
      intro fes
      have h1 := hBv fes []
      have h2 := hB fes []
      rw [h1] at h2
      simpa using h2
    have e1 : runTokens (flattenSE (.paren o)) (ops, nds) =
        runTokens (flattenSE o ++ [.str ")"]) ("(" :: ops, nds) := by
      show runTokens (.str "(" :: (flattenSE o ++ [.str ")"])) (ops, nds) = _
      rw [runTokens_cons, step_push _ _ "(" (by simp) (by simp)]
    have e2 : runTokens (flattenSE o ++ [.str ")"]) ("(" :: ops, nds) =
        runTokens [.str ")"] (segSE o ++ "(" :: ops, newO ++ nds) := by
      rw [runTokens_append, hrun]
      rfl
    have e3 : runTokens [.str ")"] (segSE o ++ "(" :: ops, newO ++ nds) =
        some (ops, v :: nds) := by
      rw [runTokens_cons, step_rparen, hred]
      rfl
    refine ⟨[v], ?_, by simp [segSE, taSE, ocSE], ?_, ?_⟩
    · rw [e1, e2, e3]
      rw [show segSE (.paren o) = [] from rfl]
      simp
    · intro x hx
      simp only [List.mem_singleton] at hx
      subst hx
      exact hwfv (segSE_mem o) hwf
    · intro fes bs
      rw [show segSE (.paren o) = [] from rfl]
      show some (denote fes v, bs) = some (specDenote fes (.paren o), bs)
      rw [hv fes]
      exact rfl
  | ofAtom t iht =>
    intro ops nds hok _
    obtain ⟨newNds, h1, hlen, hwf, hB⟩ := iht ops nds hok (fun hh => absurd hh (by decide))
    rw [segSE_level0 t] at h1 hlen hB
    refine ⟨newNds, ?_, ?_, hwf, ?_⟩
    · show runTokens (flattenSE t) (ops, nds) = _
      rw [show segSE (.ofAtom t) = [] from rfl]
      exact h1
    · rw [show segSE (.ofAtom t) = [] from rfl]
      exact hlen
    · intro fes bs
      rw [show segSE (.ofAtom t) = [] from rfl]
      exact hB fes bs
  | eand a t iha iht =>
    intro ops nds hok _
    have hok2 : okPrec a = true ∧ okPrec t = true := by
      simpa [okPrec, Bool.and_eq_true] using hok
    obtain ⟨newA, hrunA, hlenA, hwfA, hBA⟩ :=
      iha ops nds hok2.1 (fun hh => absurd hh (by decide))
    obtain ⟨newT, hrunT, hlenT, hwfT, hBT⟩ :=
      iht ("and" :: (segSE a ++ ops)) (newA ++ nds) hok2.2 (fun hh => absurd hh (by decide))
    rw [segSE_level0 t] at hrunT hlenT hBT
    obtain ⟨w, rfl⟩ : ∃ w, newT = [w] := by
      match newT, hlenT with
      | [w], _ => exact ⟨w, rfl⟩
    have hw : ∀ fes, denote fes w = specDenote fes t := by
      intro fes
      have hh := hBT fes []
      simpa [collapseB] using hh
    have e1 : runTokens (flattenSE (.eand a t)) (ops, nds) =
        runTokens (.str "and" :: flattenSE t) (segSE a ++ ops, newA ++ nds) := by
      show runTokens (flattenSE a ++ (.str "and" :: flattenSE t)) (ops, nds) = _
      rw [runTokens_append, hrunA]
      rfl
    have e2 : runTokens (.str "and" :: flattenSE t) (segSE a ++ ops, newA ++ nds) =
        runTokens (flattenSE t) ("and" :: (segSE a ++ ops), newA ++ nds) := by
      rw [runTokens_cons, step_push _ _ "and" (by simp) (by simp)]
    refine ⟨[w] ++ newA, ?_, ?_, ?_, ?_⟩
    · rw [e1, e2, hrunT, segSE_eand]
      simp [List.append_assoc]
    · rw [segSE_eand]
      simp only [List.length_append, List.length_cons, List.length_nil]
      omega
    · intro x hx
      rcases List.mem_append.mp hx with hx | hx
      · have hxw : x = w := List.mem_singleton.mp hx
        rw [hxw]
        exact hwfT w (by simp)
      · exact hwfA x hx
    · intro fes bs
      rw [segSE_eand, segSE_level1 a]
      have hpre : collapseB (List.replicate (taSE a) "and")
          (List.map (denote fes) newA ++ bs) = some (specDenote fes a, bs) := by
        have hh := hBA fes bs
        rwa [segSE_level1 a] at hh
      have hlenN : (List.map (denote fes) newA).length = taSE a + 1 := by
        have l1 : (segSE a).length = taSE a := by rw [segSE_level1]; simp
        simp only [List.length_map]
        omega
      have hsnoc := collapseB_snoc "and" (Or.inl rfl) (taSE a) (List.map (denote fes) newA)
        bs (specDenote fes a) (denote fes w) hlenN hpre
      rw [List.replicate_succ] at hsnoc
      have hcomb : combineB "and" (specDenote fes a) (denote fes w) =
          (specDenote fes a && specDenote fes t) := by
        rw [hw fes, combineB_and]
      rw [hcomb] at hsnoc
      simp only [List.cons_append] at hsnoc
      simpa [specDenote] using hsnoc
  | ofChain a iha =>
    intro ops nds hok _
    obtain ⟨newNds, h1, hlen, hwf, hB⟩ := iha ops nds hok (fun hh => absurd hh (by decide))
    refine ⟨newNds, ?_, ?_, hwf, ?_⟩
    · show runTokens (flattenSE a) (ops, nds) = _
      rw [segSE_ofChain]
      exact h1
    · rw [segSE_ofChain]
      exact hlen
    · intro fes bs
      rw [segSE_ofChain]
      exact hB fes bs
  | eor o a iho iha =>
    intro ops nds hok h
    have hok3 := hok
    simp only [okPrec, Bool.and_eq_true, decide_eq_true_eq] at hok3
    obtain ⟨⟨hokO, hokA⟩, htale⟩ := hok3
    obtain ⟨newO, hrunO, hlenO, hwfO, hBO⟩ := iho ops nds hokO (fun _ => h rfl)
    have e1 : runTokens (flattenSE (.eor o a)) (ops, nds) =
        runTokens (.str "or" :: flattenSE a) (segSE o ++ ops, newO ++ nds) := by
      show runTokens (flattenSE o ++ (.str "or" :: flattenSE a)) (ops, nds) = _
      rw [runTokens_append, hrunO]
      rfl
    have hta : taSE o = 0 ∨ taSE o = 1 := by omega
    rcases hta with hta | hta
    · -- no pending "and": the incoming "or" is just pushed
      have hseg0 : segSE o = List.replicate (ocSE o) "or" := by
        rw [segSE, hta]
        simp
      have hguard : ¬("or" = "or" ∧ ((segSE o ++ ops).head? = some "and")) := by
        rintro ⟨-, hc⟩
        rw [hseg0] at hc
        cases hoc : ocSE o with
        | zero =>
          rw [hoc] at hc
          simp only [List.replicate_zero, List.nil_append] at hc
          exact (h rfl) hc
        | succ k =>
          rw [hoc, List.replicate_succ] at hc
          simp at hc
      have e2 : runTokens (.str "or" :: flattenSE a) (segSE o ++ ops, newO ++ nds) =
          runTokens (flattenSE a) ("or" :: (segSE o ++ ops), newO ++ nds) := by
        rw [runTokens_cons, step_push _ _ "or" hguard (by simp)]
      obtain ⟨newA, hrunA, hlenA, hwfA, hBA⟩ :=
        iha ("or" :: (segSE o ++ ops)) (newO ++ nds) hokA (fun hh => absurd hh (by decide))
      have l1 : (segSE a).length = taSE a := by rw [segSE_level1]; simp
      have l2 : (segSE o).length = ocSE o := by rw [hseg0]; simp
      refine ⟨newA ++ newO, ?_, ?_, ?_, ?_⟩
      · rw [e1, e2, hrunA, segSE_eor, hseg0]
        simp [List.append_assoc]
      · rw [segSE_eor]
        simp only [List.length_append, List.length_cons, List.length_replicate]
        omega
      · intro x hx
        rcases List.mem_append.mp hx with hx | hx
        · exact hwfA x hx
        · exact hwfO x hx
      · intro fes bs
        rw [segSE_eor]
        have hpremA : collapseB (segSE a)
            (List.map (denote fes) (newA ++ newO) ++ bs) =
            some (specDenote fes a, List.map (denote fes) newO ++ bs) := by
          have hh := hBA fes (List.map (denote fes) newO ++ bs)
          simpa [List.map_append, List.append_assoc] using hh
        have hstep1 := collapseB_append_of (segSE a) ("or" :: List.replicate (ocSE o) "or")
          _ _ _ hpremA
        have hpre : collapseB (List.replicate (ocSE o) "or")
            (List.map (denote fes) newO ++ bs) = some (specDenote fes o, bs) := by
          have hh := hBO fes bs
          rwa [hseg0] at hh
        have hlenN : (List.map (denote fes) newO).length = ocSE o + 1 := by
          simp only [List.length_map]
          omega
        have hsnoc := collapseB_snoc "or" (Or.inr rfl) (ocSE o) (List.map (denote fes) newO)
          bs (specDenote fes o) (specDenote fes a) hlenN hpre
        rw [List.replicate_succ] at hsnoc
        simp only [List.cons_append] at hsnoc
        rw [hstep1, hsnoc, combineB_or]
        exact rfl
    · -- exactly one pending "and": the precedence reduction fires
      have hseg1 : segSE o = "and" :: List.replicate (ocSE o) "or" := by
        rw [segSE, hta]
        simp [List.replicate_succ]
      have hlenO2 : newO.length = ocSE o + 2 := by
        have l2 : (segSE o).length = ocSE o + 1 := by rw [hseg1]; simp
        omega
      obtain ⟨r, l, newO2, rfl⟩ : ∃ r l newO2, newO = r :: l :: newO2 := by
        match newO, hlenO2 with
        | r :: l :: newO2, _ => exact ⟨r, l, newO2, rfl⟩
      have e2 : runTokens (.str "or" :: flattenSE a) (segSE o ++ ops, (r :: l :: newO2) ++ nds) =
          runTokens (flattenSE a)
            ("or" :: (List.replicate (ocSE o) "or" ++ ops),
              Node.mk (.str "and") (some l) (some r) :: (newO2 ++ nds)) := by
        rw [hseg1]
        simp only [List.cons_append]
        rw [runTokens_cons, step_or_trigger]
      obtain ⟨newA, hrunA, hlenA, hwfA, hBA⟩ :=
        iha ("or" :: (List.replicate (ocSE o) "or" ++ ops))
          (Node.mk (.str "and") (some l) (some r) :: (newO2 ++ nds)) hokA
          (fun hh => absurd hh (by decide))
      have l1 : (segSE a).length = taSE a := by rw [segSE_level1]; simp
      refine ⟨newA ++ (Node.mk (.str "and") (some l) (some r) :: newO2), ?_, ?_, ?_, ?_⟩
      · rw [e1, e2, hrunA, segSE_eor]
        simp [List.append_assoc]
      · rw [segSE_eor]
        simp only [List.length_cons] at hlenO2
        simp only [List.length_append, List.length_cons, List.length_replicate]
        omega
      · intro x hx
        rcases List.mem_append.mp hx with hx | hx
        · exact hwfA x hx
        · rcases List.mem_cons.mp hx with rfl | hx
          · have hl := hwfO l (by simp)
            have hr := hwfO r (by simp)
            simp [wfNode, hl, hr]
          · exact hwfO x (by simp [hx])
      · intro fes bs
        rw [segSE_eor]
        have hpremA : collapseB (segSE a)
            (List.map (denote fes)
              (newA ++ (Node.mk (.str "and") (some l) (some r) :: newO2)) ++ bs) =
            some (specDenote fes a,
              List.map (denote fes) (Node.mk (.str "and") (some l) (some r) :: newO2) ++ bs) := by
          have hh := hBA fes
            (List.map (denote fes) (Node.mk (.str "and") (some l) (some r) :: newO2) ++ bs)
          simpa [List.map_append, List.append_assoc] using hh
        have hstep1 := collapseB_append_of (segSE a) ("or" :: List.replicate (ocSE o) "or")
          _ _ _ hpremA
        have hpre : collapseB (List.replicate (ocSE o) "or")
            (List.map (denote fes) (Node.mk (.str "and") (some l) (some r) :: newO2) ++ bs) =
            some (specDenote fes o, bs) := by
          have hh := hBO fes bs
          rw [hseg1] at hh
          simp only [List.map_cons, List.cons_append, collapseB] at hh ⊢
          simp only [denote]
          exact hh
        have hlenN : (List.map (denote fes)
            (Node.mk (.str "and") (some l) (some r) :: newO2)).length = ocSE o + 1 := by
          simp only [List.length_map, List.length_cons]
          simp only [List.length_cons] at hlenO2
          omega
        have hsnoc := collapseB_snoc "or" (Or.inr rfl) (ocSE o) _ bs
          (specDenote fes o) (specDenote fes a) hlenN hpre
        rw [List.replicate_succ] at hsnoc
        simp only [List.cons_append] at hsnoc
        rw [hstep1, hsnoc, combineB_or]
        exact rfl

/-! ### Consequences for whole-tree construction -/

theorem construct_valid (e : SExpr 2) :
    ∃ root, construct_tree (flattenSE e) = some ⟨some root⟩ ∧ wfNode root = true ∧
      leafCount root = countOpnd (flattenSE e) ∧
      internalCount root = countAndOr (flattenSE e) := by
  obtain ⟨seg, newNds, hrun, hmem, hlen, hwf, hleaf, hint⟩ :=
    run_weak e [] [] (fun _ => by simp)
  rw [List.append_nil, List.append_nil] at hrun
  obtain ⟨v, hcol, hwfv, hleafv, hintv, -⟩ := collapseN_spec seg newNds [] hlen
  have hdr : drain seg newNds = some [v] := by
    have hh := drain_of_collapseN seg (newNds ++ []) v [] hcol
    rwa [List.append_nil] at hh
  have hcon := construct_of_parts (flattenSE e) seg newNds [v] v [] hrun hdr rfl
  refine ⟨v, hcon, hwfv hmem hwf, ?_, ?_⟩
  · rw [hleafv]
    exact hleaf
  · rw [hintv]
    exact hint

theorem opndEval_iff (f v : String) (fes : Event) :
    opndEval (f, v) fes = true ↔ List.lookup f fes = some v := by
  show (match List.lookup f fes with
    | some w => v == w
    | none => false) = true ↔ _
  cases List.lookup f fes with
  | none =>
    exact ⟨fun hb => absurd hb Bool.false_ne_true, fun hb => Option.noConfusion hb⟩
  | some w =>
    exact ⟨fun hb => congrArg some (eq_of_beq hb).symm,
      fun hb => by
        injection hb with hwv
        rw [hwv]
        exact beq_self_eq_true v⟩

theorem runTokens_operands (l : List Operand) : ∀ (ops : List String) (nds : List Node),
    runTokens (l.map Token.operand) (ops, nds) =
      some (ops, (l.map (fun fv => Node.mk (.tup fv) none none)).reverse ++ nds) := by
  induction l with
  | nil =>
    intro ops nds
    simp [runTokens]
  | cons fv l ih =>
    intro ops nds
    rw [List.map_cons, runTokens_cons, step_operand]
    show runTokens (l.map Token.operand) (ops, Node.mk (.tup fv) none none :: nds) = _
    rw [ih]
    simp

/-! ## The claims -/

/-- C1 (counterexample): the claim as stated — for every syntactically valid
infix token sequence, the tree built by `construct_tree` evaluates, against
every event, to the conventional reading in which `and` binds tighter than
`or` — is false.  For the valid sequence `a=1 and b=1 and c=1 or d=1`
(the flattening of its conventional parse `cexExpr`) and the event
`{d: 1}`, the built tree evaluates to `false`, while the conventional
reading `((a=1 and b=1) and c=1) or d=1` is `true`: the builder reduced only
one of the two pending `and`s when the `or` arrived, producing a tree that
evaluates as `a=1 and ((b=1 and c=1) or d=1)`. -/
theorem c1_counterexample :
    (construct_tree (flattenSE cexExpr)).map (fun t => Tree.evaluate t cexEvent 10) =
      some (some (.ok false)) ∧
    specDenote cexEvent cexExpr = true := ⟨rfl, rfl⟩

/-- C1 (amended): for every syntactically valid infix token sequence in
which at most one `"and"` is pending at the moment each `"or"` token
arrives — i.e. between an `"or"` and the start of its parenthesis level or
the previous `"or"` of that level there is at most one `"and"`, formalised
by `okPrec` on the conventional parse — the tree returned by
`construct_tree` evaluates, against every event and with sufficient fuel, to
the same boolean as the conventional infix reading (`specDenote`: `and`
binds tighter than `or` within a parenthesis level, operators otherwise
left-associative). -/
theorem c1_conventional_reading (e : SExpr 2) (hok : okPrec e = true) :
    ∃ root, construct_tree (flattenSE e) = some ⟨some root⟩ ∧
      ∀ (fes : Event) (k : Nat),
        Tree.evaluate ⟨some root⟩ fes (root.size + k) = some (.ok (specDenote fes e)) := by
  obtain ⟨newNds, hrun, hlen, hwf, hB⟩ := run_strong e [] [] hok (fun _ => by simp)
  rw [List.append_nil, List.append_nil] at hrun
  obtain ⟨v, hcol, hwfv, -, -, hBv⟩ := collapseN_spec (segSE e) newNds [] hlen
  have hdr : drain (segSE e) newNds = some [v] := by
    have hh := drain_of_collapseN (segSE e) (newNds ++ []) v [] hcol
    rwa [List.append_nil] at hh
  have hcon := construct_of_parts (flattenSE e) (segSE e) newNds [v] v [] hrun hdr rfl
  have hwfroot : wfNode v = true := hwfv (segSE_mem e) hwf
  refine ⟨v, hcon, ?_⟩
  intro fes k
  have hden : denote fes v = specDenote fes e := by
    have h1 := hBv fes []
    have h2 := hB fes []
    rw [h1] at h2
    simpa using h2
  rw [treeEval_some]
  rw [evalFuel_total (v.size + k) v (wf_total v hwfroot) (by omega) (some v) fes]
  rw [totalEval_wf v hwfroot fes, hden]

/-- Witness for the amended C1, at the sequence `a=1 or b=2`. -/
theorem c1_witness :
    okPrec w1Expr = true ∧
    (∃ root, construct_tree (flattenSE w1Expr) = some ⟨some root⟩ ∧
      ∀ (fes : Event) (k : Nat),
        Tree.evaluate ⟨some root⟩ fes (root.size + k) =
          some (.ok (specDenote fes w1Expr))) :=
  ⟨rfl, c1_conventional_reading w1Expr rfl⟩

/-- C2: for every three operand tokens A, B, C and every event, the tree
built by `construct_tree` from `[A, "and", B, "or", C]` evaluates to the
boolean of `(A and B) or C`; and there are operands and an event on which
`(A and B) or C` and `A and (B or C)` give different booleans, so the tree
does not evaluate as the latter. -/
theorem c2_precedence :
    (∀ (A B C : Operand) (fes : Event),
      ∃ t, construct_tree [.operand A, .str "and", .operand B, .str "or", .operand C] =
          some t ∧
        ∀ (k : Nat), Tree.evaluate t fes (k + 3) =
          some (.ok ((opndEval A fes && opndEval B fes) || opndEval C fes))) ∧
    (∃ (A B C : Operand) (fes : Event),
      ((opndEval A fes && opndEval B fes) || opndEval C fes) = true ∧
      (opndEval A fes && (opndEval B fes || opndEval C fes)) = false) := by
  constructor
  · intro A B C fes
    exact ⟨_, rfl, fun _ => rfl⟩
  · exact ⟨("a", "1"), ("b", "1"), ("c", "1"), [("c", "1")], rfl, rfl⟩

/-- C3: for every syntactically valid infix token sequence with balanced
parentheses (the flattening of a conventional parse `e : SExpr 2`),
`construct_tree` terminates successfully and returns a tree with exactly as
many leaves as operand tokens and exactly as many internal nodes as
`"and"`/`"or"` operator tokens. -/
theorem c3_counts (e : SExpr 2) :
    ∃ root, construct_tree (flattenSE e) = some ⟨some root⟩ ∧
      leafCount root = countOpnd (flattenSE e) ∧
      internalCount root = countAndOr (flattenSE e) := by
  obtain ⟨root, h1, -, h3, h4⟩ := construct_valid e
  exact ⟨root, h1, h3, h4⟩

/-- C4: evaluating a leaf node holding operand `(f, v)` against any event
never raises and returns a boolean that is `true` exactly when the event
contains the key `f` bound (case-sensitively) to `v`; in particular a
missing field yields `false`. -/
theorem c4_leaf_semantics (f v : String) (fes : Event) (root : Option Node) (k : Nat) :
    ∃ b : Bool,
      evalFuel root fes (k + 1) (some (Node.mk (.tup (f, v)) none none)) = some (.ok b) ∧
      (b = true ↔ List.lookup f fes = some v) :=
  ⟨opndEval (f, v) fes, rfl, opndEval_iff f v fes⟩

/-- C5: a token sequence with an unmatched closing parenthesis, e.g.
`[("a","b"), ")"]`, makes `construct_tree` pop an empty stack: the
construction aborts (modelled by `none`) and no tree is returned. -/
theorem c5_unmatched_rparen :
    construct_tree [.operand ("a", "b"), .str ")"] = none := rfl

/-- C6: every tree built from a syntactically valid token sequence satisfies
the structural invariant `wfNode`: a node is a leaf iff both children are
absent, a leaf's data is an operand pair, an internal node's data is
`"and"` or `"or"` and both children are present — no node has exactly one
child. -/
theorem c6_invariant (e : SExpr 2) :
    ∃ root, construct_tree (flattenSE e) = some ⟨some root⟩ ∧ wfNode root = true := by
  obtain ⟨root, h1, h2, -, -⟩ := construct_valid e
  exact ⟨root, h1, h2⟩

/-- C7: evaluation is deterministic and side-effect free: for a tree built
from any valid token sequence and any event, two evaluations (with any two
sufficient fuels) return the same boolean.  In this pure embedding the tree
is a value, so evaluation cannot mutate it. -/
theorem c7_idempotent (e : SExpr 2) (fes : Event) (k1 k2 : Nat) :
    ∃ root b, construct_tree (flattenSE e) = some ⟨some root⟩ ∧
      Tree.evaluate ⟨some root⟩ fes (root.size + k1) = some (.ok b) ∧
      Tree.evaluate ⟨some root⟩ fes (root.size + k2) = some (.ok b) := by
  obtain ⟨root, h1, hwf, -, -⟩ := construct_valid e
  refine ⟨root, denote fes root, h1, ?_, ?_⟩ <;>
  · rw [treeEval_some]
    rw [evalFuel_total _ root (wf_total root hwf) (by omega) (some root) fes]
    rw [totalEval_wf root hwf fes]

/-- C8: for every tree `construct_tree` returns (on any token list
whatsoever) and every event, the recursive `evaluate` terminates: some fuel
bound `N` exists beyond which the result is a fixed value (a boolean, or the
`KeyError` the source would raise on a non-logical operator) rather than the
out-of-fuel marker. -/
theorem c8_terminates (ts : List Token) (t : Tree) (fes : Event)
    (h : construct_tree ts = some t) :
    ∃ r N, ∀ n, N ≤ n → Tree.evaluate t fes n = some r := by
  obtain ⟨root, hroot, htot⟩ := construct_total ts t h
  obtain ⟨r0⟩ := t
  have hr0 : r0 = some root := hroot
  subst hr0
  refine ⟨totalEval fes root, root.size, fun n hn => ?_⟩
  rw [treeEval_some]
  exact evalFuel_total n root htot hn (some root) fes

/-- Witness for C8, at the single-operand sequence `[("a","b")]`. -/
theorem c8_witness :
    construct_tree [.operand ("a", "b")] =
      some ⟨some (Node.mk (.tup ("a", "b")) none none)⟩ ∧
    (∃ r N, ∀ n, N ≤ n →
      Tree.evaluate ⟨some (Node.mk (.tup ("a", "b")) none none)⟩
        ([("a", "b")] : Event) n = some r) :=
  ⟨rfl, c8_terminates [.operand ("a", "b")]
    ⟨some (Node.mk (.tup ("a", "b")) none none)⟩ [("a", "b")] rfl⟩

/-- C9: evaluating a `Tree` whose root is null returns `false` for every
event (the `node is None` branch of the source's `evaluate`). -/
theorem c9_null_root (fes : Event) (k : Nat) :
    Tree.evaluate ⟨none⟩ fes (k + 1) = some (.ok false) := rfl

/-- C10: a token sequence of two or more operand tokens with no operator
between them raises no error: `construct_tree` returns a tree whose root is
the leaf for the *last* operand, silently discarding the earlier ones (the
final `operand_stack.pop()` takes only the top of the stack). -/
theorem c10_extra_operands (pre : List Operand) (last : Operand) (_h : pre ≠ []) :
    construct_tree ((pre ++ [last]).map Token.operand) =
      some ⟨some (Node.mk (.tup last) none none)⟩ := by
  have hrun := runTokens_operands (pre ++ [last]) [] []
  have hsplit : ((pre ++ [last]).map (fun fv => Node.mk (.tup fv) none none)).reverse =
      Node.mk (.tup last) none none ::
        (pre.map (fun fv => Node.mk (.tup fv) none none)).reverse := by
    simp
  rw [hsplit, List.append_nil] at hrun
  exact construct_of_parts _ [] _ _ _ _ hrun rfl rfl

/-- Witness for C10, at the sequence `[("a","b"), ("c","d")]`. -/
theorem c10_witness :
    (([("a", "b")] : List Operand) ≠ []) ∧
    construct_tree ((([("a", "b")] : List Operand) ++ [("c", "d")]).map Token.operand) =
      some ⟨some (Node.mk (.tup ("c", "d")) none none)⟩ :=
  ⟨by simp, c10_extra_operands [("a", "b")] ("c", "d") (by simp)⟩

end Falco
